import Mathlib

/-!
Shallow embedding of the `bep/overlayfs` Go repository (current snapshot:
`overlayfs.go`, `readops.go`, `writeops.go`) together with proofs about the
claims of its specification.

Modelling conventions:
* Go's `error` results become `Except Err`; `os.ErrNotExist`,
  `os.ErrPermission`, `io.EOF`, `os.ErrClosed` are constructors of `Err`;
  a Go runtime panic is the distinguished constructor `Err.goPanic`.
* An `afero.Fs` backend is the tree `Fs`: a `leaf` is an opaque external
  filesystem described by its observable behaviour (its `Stat`, optional
  `LstatIfPossible`, and `Open(name).ReadDir(-1)` results); an `overlay`
  node is an `OverlayFs` value (which implements both `afero.Fs` and
  `FilesystemIterator`, so the resolution engine recurses into it).
* `os.FileInfo` / `fs.DirEntry` are both modelled by `FileInfo`
  (the code only observes `Name()` and `IsDir()`; `id` keeps distinct
  metadata distinguishable).
-/

namespace Overlay

/-- Go error values distinguished by the overlayfs code. -/
inductive Err where
  /-- `os.ErrNotExist` (or any error accepted by `os.IsNotExist`). -/
  | notFound
  /-- `os.ErrPermission`. -/
  | permission
  /-- `io.EOF`. -/
  | eofErr
  /-- `os.ErrClosed`. -/
  | closedErr
  /-- a Go runtime panic (fatal, not an `error` value). -/
  | goPanic
  /-- any other backend error, tagged so that distinct errors stay distinct. -/
  | other (n : Nat)
  deriving DecidableEq, Repr

/-- The metadata the code observes from `os.FileInfo` / `fs.DirEntry`:
`Name()`, `IsDir()`; `id` keeps metadata from different backends apart. -/
structure FileInfo where
  name : String
  isDir : Bool
  id : Nat
  deriving DecidableEq, Repr

/-- An opaque external backend (an `afero.Fs` that is not an `OverlayFs`),
described by its observable behaviour at each path:
`statFn` is its `Stat`; `lstatFn` is `some f` when the backend implements
`afero.Lstater` (then `f` is its `LstatIfPossible`, returning the metadata
and the used-lightweight-form flag); `entriesFn name` is the entry list
produced by `Open(name)` followed by a full `ReadDir(-1)`. -/
structure LeafFs where
  statFn : String → Except Err FileInfo
  lstatFn : Option (String → Except Err (FileInfo × Bool))
  entriesFn : String → Except Err (List FileInfo)

/-- A backend tree: either an opaque external backend or a nested
`OverlayFs` over an ordered backend list (priority order, highest first).
Overlay nodes implement `FilesystemIterator`, `afero.Fs` and
`afero.Lstater`, which is what the recursive engine dispatches on. -/
inductive Fs where
  | leaf (l : LeafFs)
  | overlay (fss : List Fs)

mutual

/-- `OverlayFs.statRecursive` from `overlayfs.go`: try the node's own
stat (its `LstatIfPossible` when `lst` is set and the node implements
`afero.Lstater`, else its `Stat`); return unless the error is not-found;
otherwise, if the node implements `FilesystemIterator`, try each
sub-filesystem in order.  An overlay node's own `Stat` and
`LstatIfPossible` methods both resolve with `lstatIfPossible = false`
(see `readops.go`), and an overlay node always implements
`afero.Lstater`. Returns the owning filesystem, the metadata and the
used-lightweight-stat flag. -/
def statRecursive (fs : Fs) (name : String) (lst : Bool) :
    Except Err (Fs × FileInfo × Bool) :=
  match fs with
  | .leaf l =>
    if lst then
      match l.lstatFn with
      | some lf =>
        match lf name with
        | .ok (fi, fl) => .ok (.leaf l, fi, fl)
        | .error e => .error e
      | none =>
        match l.statFn name with
        | .ok fi => .ok (.leaf l, fi, false)
        | .error e => .error e
    else
      match l.statFn name with
      | .ok fi => .ok (.leaf l, fi, false)
      | .error e => .error e
  | .overlay fss =>
    match ofsStat fss name false with
    | .ok (_, fi, fl) => .ok (.overlay fss, fi, if lst then fl else false)
    | .error e =>
      if e = .notFound then ofsStat fss name lst else .error e

/-- `OverlayFs.stat` from `overlayfs.go`: walk the backend list in order,
returning the first result that is a success or a non-not-found error;
an empty or exhausted list reports `os.ErrNotExist`. -/
def ofsStat (fss : List Fs) (name : String) (lst : Bool) :
    Except Err (Fs × FileInfo × Bool) :=
  match fss with
  | [] => .error .notFound
  | f :: rest =>
    match statRecursive f name lst with
    | .ok r => .ok r
    | .error e => if e = .notFound then ofsStat rest name lst else .error e

end

/-- `OverlayFs.Stat` from `readops.go`: resolve with
`lstatIfPossible = false` and return the metadata. -/
def OverlayStat (fss : List Fs) (name : String) : Except Err FileInfo :=
  (ofsStat fss name false).map (fun r => r.2.1)

/-- `OverlayFs.LstatIfPossible` from `readops.go`: the code resolves with
`lstatIfPossible = false` (not `true`) and returns the metadata together
with the used-lightweight-form flag. -/
def OverlayLstatIfPossible (fss : List Fs) (name : String) :
    Except Err (FileInfo × Bool) :=
  (ofsStat fss name false).map (fun r => r.2)

/-- The `Stat` method of a single backend node as the engine calls it:
a leaf's own stat function, or for an overlay node its `OverlayFs.Stat`. -/
def nodeStat (fs : Fs) (name : String) : Except Err FileInfo :=
  match fs with
  | .leaf l => l.statFn name
  | .overlay fss => OverlayStat fss name

mutual

/-- `OverlayFs.collectDirsRecursive` from `overlayfs.go`: record the node
itself when its own `Stat` succeeds with a directory, then recurse into
its sub-filesystems when it implements `FilesystemIterator`.  Stat errors
are skipped, never propagated. -/
def collectDirsRecursive (fs : Fs) (name : String) : List Fs :=
  (match nodeStat fs name with
   | .ok fi => if fi.isDir then [fs] else []
   | .error _ => []) ++
  (match fs with
   | .leaf _ => []
   | .overlay fss => collectDirsList fss name)

/-- `OverlayFs.collectDirs` from `overlayfs.go`: collect over the backend
list in order. -/
def collectDirsList (fss : List Fs) (name : String) : List Fs :=
  match fss with
  | [] => []
  | f :: rest => collectDirsRecursive f name ++ collectDirsList rest name

end

/-- `true` when some entry of `l` is named `s` (the inner loop of
`defaultDirMerger`). -/
def hasName (l : List FileInfo) (s : String) : Bool :=
  l.any (fun x => x.name = s)

/-- `defaultDirMerger` from `overlayfs.go`: for each entry of `bofi`, scan
the current `lofi` for an entry with the same name and append the entry
only when none is found. -/
def defaultDirMerger (lofi bofi : List FileInfo) : List FileInfo :=
  bofi.foldl (fun acc e => if hasName acc e.name then acc else acc ++ [e]) lofi

/-- The capacity of the backing array of a Go slice built by appending
`n` elements one at a time to a `nil` slice (the growth sequence
1, 2, 4, 8, …, doubling whenever the length would exceed the capacity;
this is how the merged `d.fis` buffer of a first-use cursor is built by
`defaultDirMerger`). -/
def goGrowCap : Nat → Nat
  | 0 => 0
  | n + 1 =>
    let c := goGrowCap n
    if c < n + 1 then (if c = 0 then 1 else 2 * c) else c

/-- The state of a merged-directory cursor (`Dir` in `overlayfs.go`).
`pending` holds, for each entry of `d.fss` (in order), the entry list its
`Open(name)` + full `ReadDir(-1)` produces (or the error); `numFss` and
`numOpeners` are `len(d.fss)` and `len(d.dirOpeners)` (the cursor counts
as closed when both are zero); `fis` is the merged entry buffer, `offset`
the read offset and `err` the sticky error.  A first-use cursor (fresh
from `OverlayFs.Open`, pool miss) has `fis = []`, `offset = 0`,
`err = none`. -/
structure DirState where
  pending : List (Except Err (List FileInfo))
  numFss : Nat
  numOpeners : Nat
  fis : List FileInfo
  offset : Nat
  err : Option Err
  deriving Repr

/-- The population loop of `Dir.ReadDir` (run when `d.offset == 0`): fold
every owner's full entry list into the buffer through the merger, stopping
at the first error (the partially merged buffer is kept). -/
def populateDir : List (Except Err (List FileInfo)) → List FileInfo →
    List FileInfo × Option Err
  | [], acc => (acc, none)
  | .error e :: _, acc => (acc, some e)
  | .ok es :: rest, acc => populateDir rest (defaultDirMerger acc es)

/-- `Dir.ReadDir` from `overlayfs.go`, on a first-use cursor.  The entry
list is returned as `List (Option FileInfo)`: `some e` is a real entry,
`none` is the zero-valued `fs.DirEntry` obtained when the code reslices
`fis[:n]` past the slice's length but within the backing array's capacity
(`goGrowCap`), and reslicing past the capacity is the runtime panic
`Err.goPanic`.  Faithful to the source: the positive-`n` clamp compares
`n` against `len(d.fis)` (the whole buffer), not against the remaining
entries. -/
def dirReadDir (d : DirState) (n : Int) :
    Except Err (List (Option FileInfo)) × DirState :=
  match d.err with
  | some e => (.error e, d)
  | none =>
    if d.numFss = 0 ∧ d.numOpeners = 0 then (.error .closedErr, d)
    else
      let pop := if d.offset = 0 then populateDir d.pending d.fis else (d.fis, none)
      let d1 : DirState := { d with fis := pop.1 }
      match pop.2 with
      | some e => (.error e, d1)
      | none =>
        let fis := d1.fis.drop d1.offset
        if n ≤ 0 then
          let d2 := { d1 with err := some .eofErr }
          if 0 < d1.offset ∧ fis = [] then (.error .eofErr, d2)
          else (.ok (fis.map some), d2)
        else if fis = [] then (.error .eofErr, { d1 with err := some .eofErr })
        else
          let n2 := min n.toNat d1.fis.length
          if goGrowCap d1.fis.length < d1.offset + n2 then (.error .goPanic, d1)
          else
            (.ok ((List.range n2).map (fun i => d1.fis[d1.offset + i]?)),
             { d1 with offset := d1.offset + n2 })

/-- Repeatedly call `ReadDir k` on the cursor, concatenating the returned
entries, until a call returns an error (normally `io.EOF`); `fuel` bounds
the number of calls. -/
def readChunks (k : Int) : Nat → DirState → List (Option FileInfo) × Option Err
  | 0, _ => ([], none)
  | fuel + 1, d =>
    match dirReadDir d k with
    | (.ok l, d1) =>
      let r := readChunks k fuel d1
      (l ++ r.1, r.2)
    | (.error e, _) => ([], some e)

/-- A freshly opened merged-directory cursor over the given owner
listings, as `OverlayFs.Open` builds it on a pool miss: `fss` holds the
owners, no `dirOpeners`, empty buffer, zero offset, no sticky error. -/
def freshDir (pending : List (Except Err (List FileInfo))) : DirState :=
  { pending := pending, numFss := pending.length, numOpeners := 0,
    fis := [], offset := 0, err := none }

mutual

/-- Nesting depth of a backend tree (leaves have depth 0). -/
def Fs.depth : Fs → Nat
  | .leaf _ => 0
  | .overlay fss => fssDepth fss + 1

/-- Maximal depth of a backend list. -/
def fssDepth : List Fs → Nat
  | [] => 0
  | f :: rest => max (Fs.depth f) (fssDepth rest)

end

/-- `Open(name)` on a backend node followed by a full read of the result,
returning the entry list (fuel-indexed: `b` must be at least the node's
nesting depth, see `Fs.openAll`).  A leaf yields its own listing.  An
overlay node follows `OverlayFs.Open` from `readops.go`: resolve the path;
on a directory, collect all owning backends; zero owners fail not-found;
exactly one owner is opened directly (skipping the merge); otherwise every
owner is opened and fully read in order and its entries folded through
`defaultDirMerger` into the cursor's buffer (the merged cursor fully
read); the first owner error is returned (the `Except`-valued fold
propagates it past the remaining owners, which the Go loop does not
visit — same result).  On a non-directory the owning backend is opened
directly. -/
def openAllB : Nat → Fs → String → Except Err (List FileInfo)
  | _, .leaf l, name => l.entriesFn name
  | 0, .overlay _, _ => .error (.other 0)
  | b + 1, .overlay fss, name =>
    match ofsStat fss name false with
    | .error e => .error e
    | .ok (owner, fi, _) =>
      if fi.isDir then
        match collectDirsList fss name with
        | [] => .error .notFound
        | [o] => openAllB b o name
        | owners =>
          owners.foldl
            (fun acc o =>
              match acc with
              | .error e => .error e
              | .ok accl =>
                match openAllB b o name with
                | .error e => .error e
                | .ok es => .ok (defaultDirMerger accl es))
            (.ok [])
      else openAllB b owner name

/-- Open every owner and read it fully, collecting the per-owner entry
lists and stopping at the first error (proof-side normal form of the
merged cursor's populating fold). -/
def collectResults (b : Nat) (owners : List Fs) (name : String) :
    Except Err (List (List FileInfo)) :=
  match owners with
  | [] => .ok []
  | o :: rest =>
    match openAllB b o name with
    | .error e => .error e
    | .ok es => (collectResults b rest name).map (fun l => es :: l)

/-- The step function of the `openAllB` owner-merging fold, given a name
of its own (definitionally equal to the lambda inside `openAllB`). -/
def openFoldStep (b : Nat) (name : String) :
    Except Err (List FileInfo) → Fs → Except Err (List FileInfo) :=
  fun acc o =>
    match acc with
    | .error e => .error e
    | .ok accl =>
      match openAllB b o name with
      | .error e => .error e
      | .ok es => .ok (defaultDirMerger accl es)

/-- `Open(name)` on a backend node followed by a full read, with enough
fuel for the node's depth. -/
def Fs.openAll (fs : Fs) (name : String) : Except Err (List FileInfo) :=
  openAllB (Fs.depth fs) fs name

/-! ### Write dispatch (`writeops.go`) -/

/-- The flag bits `OpenFile` inspects:
`os.O_WRONLY | os.O_RDWR | os.O_APPEND | os.O_CREATE | os.O_TRUNC`. -/
structure OpenFlags where
  wronly : Bool
  rdwr : Bool
  oappend : Bool
  ocreate : Bool
  otrunc : Bool
  deriving DecidableEq, Repr

/-- `flag&(os.O_WRONLY|os.O_RDWR|os.O_APPEND|os.O_CREATE|os.O_TRUNC) != 0`. -/
def OpenFlags.hasWriteBit (f : OpenFlags) : Bool :=
  f.wronly || f.rdwr || f.oappend || f.ocreate || f.otrunc

/-- One mutating call, with its arguments (times and modes as `Nat`). -/
inductive WOp where
  | chmod (name : String) (mode : Nat)
  | chown (name : String) (uid gid : Int)
  | chtimes (name : String) (atime mtime : Nat)
  | mkdir (name : String) (perm : Nat)
  | mkdirAll (path : String) (perm : Nat)
  | openFileW (name : String) (flags : OpenFlags) (perm : Nat)
  | remove (name : String)
  | removeAll (path : String)
  | rename (oldname newname : String)
  | create (name : String)
  deriving DecidableEq, Repr

/-- An opaque backend as the write dispatcher sees it: a log of the
mutating operations that were forwarded to it. -/
structure WBackend where
  log : List WOp
  deriving DecidableEq, Repr

/-- Forward one mutating operation to a backend (the backend records it). -/
def WBackend.applyOp (b : WBackend) (op : WOp) : WBackend :=
  ⟨b.log ++ [op]⟩

/-- Outcome of a mutating call on the overlay:  `ok` (forwarded),
`permission` (`os.ErrPermission` from the write gate), `panicNoFs` (the
`writeFs` panic `"overlayfs: there are no filesystems to write to"`), or
`readPath` (`OpenFile` without write flags degrading to `Open`). -/
inductive WriteOut where
  | ok
  | permission
  | panicNoFs
  | readPath
  deriving DecidableEq, Repr

/-- The overlay as the write dispatcher sees it. -/
structure WOverlay where
  fss : List WBackend
  firstWritable : Bool
  deriving DecidableEq, Repr

/-- The shared shape of every gated write method in `writeops.go`: check
`ofs.firstWritable`, then `ofs.writeFs()` (which panics on an empty list,
else returns the first backend) and forward. -/
def writeGate (ofs : WOverlay) (op : WOp) : WriteOut × WOverlay :=
  if !ofs.firstWritable then (.permission, ofs)
  else
    match ofs.fss with
    | [] => (.panicNoFs, ofs)
    | b :: rest => (.ok, { ofs with fss := b.applyOp op :: rest })

/-- `OverlayFs.Chmod`. -/
def wChmod (ofs : WOverlay) (name : String) (mode : Nat) : WriteOut × WOverlay :=
  writeGate ofs (.chmod name mode)

/-- `OverlayFs.Chown`. -/
def wChown (ofs : WOverlay) (name : String) (uid gid : Int) : WriteOut × WOverlay :=
  writeGate ofs (.chown name uid gid)

/-- `OverlayFs.Chtimes`. -/
def wChtimes (ofs : WOverlay) (name : String) (atime mtime : Nat) : WriteOut × WOverlay :=
  writeGate ofs (.chtimes name atime mtime)

/-- `OverlayFs.Mkdir`. -/
def wMkdir (ofs : WOverlay) (name : String) (perm : Nat) : WriteOut × WOverlay :=
  writeGate ofs (.mkdir name perm)

/-- `OverlayFs.MkdirAll`. -/
def wMkdirAll (ofs : WOverlay) (path : String) (perm : Nat) : WriteOut × WOverlay :=
  writeGate ofs (.mkdirAll path perm)

/-- `OverlayFs.OpenFile`: with any of the write/append/create/truncate
flags set it is gated and forwarded like the other mutating operations;
otherwise it degrades to the read-only `Open` path (no backend mutated). -/
def wOpenFile (ofs : WOverlay) (name : String) (flags : OpenFlags) (perm : Nat) :
    WriteOut × WOverlay :=
  if flags.hasWriteBit then writeGate ofs (.openFileW name flags perm)
  else (.readPath, ofs)

/-- `OverlayFs.Remove`. -/
def wRemove (ofs : WOverlay) (name : String) : WriteOut × WOverlay :=
  writeGate ofs (.remove name)

/-- `OverlayFs.RemoveAll`. -/
def wRemoveAll (ofs : WOverlay) (path : String) : WriteOut × WOverlay :=
  writeGate ofs (.removeAll path)

/-- `OverlayFs.Rename`. -/
def wRename (ofs : WOverlay) (oldname newname : String) : WriteOut × WOverlay :=
  writeGate ofs (.rename oldname newname)

/-- `OverlayFs.Create`. -/
def wCreate (ofs : WOverlay) (name : String) : WriteOut × WOverlay :=
  writeGate ofs (.create name)

/-- Dispatch one mutating call to the corresponding method. -/
def applyWOp (ofs : WOverlay) (op : WOp) : WriteOut × WOverlay :=
  match op with
  | .chmod n m => wChmod ofs n m
  | .chown n u g => wChown ofs n u g
  | .chtimes n a m => wChtimes ofs n a m
  | .mkdir n p => wMkdir ofs n p
  | .mkdirAll p q => wMkdirAll ofs p q
  | .openFileW n f p => wOpenFile ofs n f p
  | .remove n => wRemove ofs n
  | .removeAll p => wRemoveAll ofs p
  | .rename o n => wRename ofs o n
  | .create n => wCreate ofs n

/-- Whether the call is a mutating operation (for `OpenFile`, whether a
write/append/create/truncate flag is set). -/
def WOp.isMutating : WOp → Bool
  | .openFileW _ f _ => f.hasWriteBit
  | _ => true

/-! ### `Filesystem`/`NumFilesystems` (plain list view, for C9) -/

/-- `OverlayFs.Filesystem` from `overlayfs.go` over a Go `int` index:
`if i >= len(ofs.fss) { return nil }; return ofs.fss[i]`.  Backends are
identified by `Nat` ids; `none` is the `nil` return and `Err.goPanic`
the index-out-of-range runtime panic of `ofs.fss[i]` for negative `i`. -/
def FilesystemAt (fss : List Nat) (i : Int) : Except Err (Option Nat) :=
  if (fss.length : Int) ≤ i then .ok none
  else if i < 0 then .error .goPanic
  else .ok (some (fss.getD i.toNat 0))

/-! ### `Append` with Go slice aliasing (for C8) -/

namespace AppendModel

/-- A Go slice value: an index into the heap of backing arrays plus a
length (the slices built here always start at array offset 0). -/
structure GoSlice where
  arr : Nat
  len : Nat
  deriving DecidableEq, Repr

/-- The heap of backing arrays of `[]afero.Fs` slices.  An array's list
length is its capacity; slots beyond a slice's `len` hold the zero value
`0` (`nil`).  Backends are identified by positive `Nat` ids. -/
abbrev Heap := List (List Nat)

/-- Go `append(s, x)` for one element: write in place when the backing
array has spare capacity (aliasing!), otherwise allocate a fresh array of
doubled capacity (zero-filled beyond the new element). -/
def goAppend (h : Heap) (s : GoSlice) (x : Nat) : Heap × GoSlice :=
  if s.len < (h.getD s.arr []).length then
    (h.set s.arr ((h.getD s.arr []).set s.len x), ⟨s.arr, s.len + 1⟩)
  else
    (h ++ [(h.getD s.arr []).take s.len ++ [x] ++
       List.replicate ((if (h.getD s.arr []).length = 0 then 1
         else 2 * (h.getD s.arr []).length) - (s.len + 1)) 0],
     ⟨h.length, s.len + 1⟩)

/-- An overlay instance as far as `Append`, `Filesystem` and
`NumFilesystems` observe it: its backend slice. -/
structure OFs where
  fss : GoSlice
  deriving DecidableEq, Repr

/-- `OverlayFs.Append` with one appended backend (named `appendFs` here
because `Append` collides with a core Lean class): the value receiver
copies the struct (sharing the slice's backing array) and appends. -/
def appendFs (h : Heap) (ofs : OFs) (x : Nat) : Heap × OFs :=
  ((goAppend h ofs.fss x).1, ⟨(goAppend h ofs.fss x).2⟩)

/-- `OverlayFs.NumFilesystems`. -/
def NumFilesystems (ofs : OFs) : Nat := ofs.fss.len

/-- `OverlayFs.Filesystem` (non-negative index) under the heap: `none`
for `i ≥ len`, else the backing-array slot. -/
def FilesystemH (h : Heap) (ofs : OFs) (i : Nat) : Option Nat :=
  if ofs.fss.len ≤ i then none
  else some ((h.getD ofs.fss.arr []).getD i 0)

end AppendModel

/-! ### Claim-shaped (specification-side) definitions -/

/-- Entry names of a listing. -/
def namesOf (l : List FileInfo) : List String := l.map (·.name)

/-- No two entries of the listing share a name (Boolean form). -/
def nodupNamesB : List FileInfo → Bool
  | [] => true
  | e :: rest => !(hasName rest e.name) && nodupNamesB rest

/-- `true` when the string list contains `s`. -/
def hasStr (seen : List String) (s : String) : Bool :=
  seen.any (fun t => t = s)

/-- Claim-shaped merged view (for C4): each backend contributes, in
backend order, those of its entries (in the backend's own order) whose
names do not duplicate any earlier backend's entry name; `seen` carries
the earlier names. -/
def specMergeGo (seen : List String) : List (List FileInfo) → List FileInfo
  | [] => []
  | b :: rest =>
    b.filter (fun e => !hasStr seen e.name) ++ specMergeGo (seen ++ namesOf b) rest

/-- Claim-shaped merged view of a backend's listings in priority order. -/
def specMergedView (bs : List (List FileInfo)) : List FileInfo :=
  specMergeGo [] bs

/-- First element of the lookup-outcome sequence that is a success or a
non-not-found error; not-found when the sequence is exhausted (for C5). -/
def firstNonNotFound : List (Except Err FileInfo) → Except Err FileInfo
  | [] => .error .notFound
  | r :: rest =>
    match r with
    | .error .notFound => firstNonNotFound rest
    | _ => r

mutual

/-- The stat outcomes of the leaf backends of a tree in depth-first
priority order (for C5). -/
def dfsLeafStats (fs : Fs) (name : String) : List (Except Err FileInfo) :=
  match fs with
  | .leaf l => [l.statFn name]
  | .overlay fss => dfsLeafStatsList fss name

/-- `dfsLeafStats` over a backend list. -/
def dfsLeafStatsList (fss : List Fs) (name : String) : List (Except Err FileInfo) :=
  match fss with
  | [] => []
  | f :: rest => dfsLeafStats f name ++ dfsLeafStatsList rest name

end

/-! ### Concrete instances used by claim theorems and witnesses -/

/-- A backend advertising the lightweight-stat capability whose `Stat`
and `LstatIfPossible` report distinguishable metadata (ids 1 vs 2) and
whose lightweight form reports the used flag `true`. -/
def c1Leaf : LeafFs :=
  { statFn := fun _ => .ok ⟨"x", false, 1⟩,
    lstatFn := some (fun _ => .ok (⟨"x", false, 2⟩, true)),
    entriesFn := fun _ => .error .notFound }

/-- Entries of the C2/C4 example directories. -/
def c2e1 : FileInfo := ⟨"a", false, 1⟩

/-- Second example entry. -/
def c2e2 : FileInfo := ⟨"b", false, 2⟩

/-- Third example entry. -/
def c2e3 : FileInfo := ⟨"c", false, 3⟩

/-- Fourth example entry. -/
def c2e4 : FileInfo := ⟨"d", false, 4⟩

/-- A fresh merged-directory cursor over two backends with three merged
entries in total. -/
def c2Dir : DirState := freshDir [.ok [c2e1, c2e2], .ok [c2e3]]

/-- A fresh merged-directory cursor over two backends with four merged
entries in total. -/
def c2Dir4 : DirState := freshDir [.ok [c2e1, c2e2], .ok [c2e3, c2e4]]

/-- A fresh merged-directory cursor over two owning backends whose
directories are both empty. -/
def c10Dir : DirState := freshDir [.ok [], .ok []]

/-- A backend owning directory `"d"` with entries `a`, `b`, for the C7
witness. -/
def c7LeafA : LeafFs :=
  { statFn := fun n => if n = "d" then .ok ⟨"d", true, 1⟩ else .error .notFound,
    lstatFn := none,
    entriesFn := fun n =>
      if n = "d" then .ok [⟨"a", false, 1⟩, ⟨"b", false, 2⟩]
      else .error .notFound }

/-- A backend owning directory `"d"` with entries `b` (a duplicate name)
and `c`, for the C7 witness. -/
def c7LeafB : LeafFs :=
  { statFn := fun n => if n = "d" then .ok ⟨"d", true, 2⟩ else .error .notFound,
    lstatFn := none,
    entriesFn := fun n =>
      if n = "d" then .ok [⟨"b", false, 9⟩, ⟨"c", false, 3⟩]
      else .error .notFound }

/-- A backend that has nothing (stat always not-found), for the C5
witness. -/
def c5LeafNF : LeafFs :=
  { statFn := fun _ => .error .notFound,
    lstatFn := none,
    entriesFn := fun _ => .error .notFound }

/-- A backend owning `"f"` with metadata id 1, for the C5 witness. -/
def c5Leaf1 : LeafFs :=
  { statFn := fun _ => .ok ⟨"f", false, 1⟩,
    lstatFn := none,
    entriesFn := fun _ => .error .notFound }

/-- A backend owning `"f"` with metadata id 2, for the C5 witness. -/
def c5Leaf2 : LeafFs :=
  { statFn := fun _ => .ok ⟨"f", false, 2⟩,
    lstatFn := none,
    entriesFn := fun _ => .error .notFound }

namespace AppendModel

/-- Initial heap: one backing array holding backends 10 and 11 with no
spare capacity (`New(Options{Fss: []afero.Fs{f10, f11}})`). -/
def c8Heap0 : Heap := [[10, 11]]

/-- The overlay built by `New` over that slice. -/
def c8O0 : OFs := ⟨⟨0, 2⟩⟩

/-- `O := New([f10,f11]).Append(f12)`: its backend slice has length 3 in
a backing array of capacity 4 (spare capacity). -/
def c8O : Heap × OFs := appendFs c8Heap0 c8O0 12

/-- `d1 := O.Append(f13)`: appends in place into the shared array. -/
def c8d1 : Heap × OFs := appendFs c8O.1 c8O.2 13

/-- `O.Append(f14)` afterwards: overwrites the shared slot 3. -/
def c8d2 : Heap × OFs := appendFs c8d1.1 c8O.2 14

end AppendModel

mutual

/-- Every leaf listing at `name` in the tree is name-unique (the standard
directory invariant, Boolean form; for C4/C7). -/
def listingsUniqueAt (fs : Fs) (name : String) : Bool :=
  match fs with
  | .leaf l =>
    match l.entriesFn name with
    | .ok es => nodupNamesB es
    | .error _ => true
  | .overlay fss => listingsUniqueAtList fss name

/-- `listingsUniqueAt` over a backend list. -/
def listingsUniqueAtList (fss : List Fs) (name : String) : Bool :=
  match fss with
  | [] => true
  | f :: rest => listingsUniqueAt f name && listingsUniqueAtList rest name

end

/-! ## Theorems -/

/-- **C1** (code bug, evaluation at the failing input): `LstatIfPossible`
resolves with `lstatIfPossible = false`, so on an overlay over a single
backend that advertises the lightweight-stat capability (and whose
lightweight stat would return distinct metadata with flag `true`), the
regular `Stat` metadata is returned and the flag is `false` — the
lightweight form is never used, contradicting the claim (and the method's
own documentation). -/
theorem c1_lstat_never_used :
    OverlayLstatIfPossible [.leaf c1Leaf] "p" = .ok (⟨"x", false, 1⟩, false) ∧
    (⟨"x", false, 1⟩ : FileInfo) ≠ ⟨"x", false, 2⟩ :=
  ⟨rfl, by decide⟩

/-- **C2** (code bug, evaluation at the failing input): on a fresh cursor
with merged entries `[a, b, c]`, reading in chunks of `k = 2` yields
`a, b, c` plus a zero-valued (nil) entry — not the unpaginated sequence —
because the positive-`n` clamp compares against the whole buffer instead
of the remaining entries; with four merged entries and `k = 3` the second
read even panics (reslicing past the backing array's capacity). -/
theorem c2_pagination_inequivalent :
    (dirReadDir c2Dir (-1)).1 = .ok [some c2e1, some c2e2, some c2e3] ∧
    (readChunks 2 5 c2Dir).1 = [some c2e1, some c2e2, some c2e3, none] ∧
    ([some c2e1, some c2e2, some c2e3, none] : List (Option FileInfo)) ≠
      [some c2e1, some c2e2, some c2e3] ∧
    (readChunks 3 5 c2Dir4).2 = some .goPanic :=
  ⟨rfl, rfl, by decide, rfl⟩

/-- **C3** (counterexample): on an overlay with an empty backend list and
the write-enabled flag off, `Chmod` fails with the recoverable permission
error — not fatally — because the write gate checks the flag before
`writeFs()` can panic; so the claim's "regardless of the write-enabled
flag" is false. -/
theorem c3_counterexample :
    (wChmod ⟨[], false⟩ "f" 0).1 = .permission ∧
    WriteOut.permission ≠ WriteOut.panicNoFs :=
  ⟨rfl, by decide⟩

/-- **C3 amended**: with an empty backend list, `Stat` on any path fails
not-found (never a distinct "no backends" error), and every mutating
operation fails fatally (the `writeFs` panic) when the write-enabled flag
is on, but fails with the recoverable permission error when the flag is
off. -/
theorem c3_amended_empty_overlay (name : String) (op : WOp)
    (h : op.isMutating = true) :
    OverlayStat [] name = .error .notFound ∧
    applyWOp ⟨[], true⟩ op = (.panicNoFs, ⟨[], true⟩) ∧
    applyWOp ⟨[], false⟩ op = (.permission, ⟨[], false⟩) := by
  refine ⟨rfl, ?_, ?_⟩ <;> cases op <;>
    simp_all [applyWOp, wChmod, wChown, wChtimes, wMkdir, wMkdirAll, wOpenFile,
      wRemove, wRemoveAll, wRename, wCreate, writeGate, WOp.isMutating]

/-- Witness for the amended C3 at a concrete mutating operation. -/
theorem c3_amended_witness :
    OverlayStat [] "f" = .error .notFound ∧
    applyWOp ⟨[], true⟩ (.chmod "f" 0) = (.panicNoFs, ⟨[], true⟩) ∧
    applyWOp ⟨[], false⟩ (.chmod "f" 0) = (.permission, ⟨[], false⟩) :=
  c3_amended_empty_overlay "f" (.chmod "f" 0) rfl

/-- **C6**: every mutating operation (including `OpenFile` with a
write/append/create/truncate flag) returns the permission error and
leaves every backend untouched when the write-enabled flag is off; with
the flag on and a non-empty backend list the operation is forwarded
exactly once to the first backend (its log grows by exactly that one
operation) and to no other backend. -/
theorem c6_write_gating (ofs : WOverlay) (op : WOp) (h : op.isMutating = true) :
    (ofs.firstWritable = false → applyWOp ofs op = (.permission, ofs)) ∧
    (∀ b rest, ofs.firstWritable = true → ofs.fss = b :: rest →
      applyWOp ofs op = (.ok, ⟨b.applyOp op :: rest, true⟩)) := by
  obtain ⟨fssl, fw⟩ := ofs
  constructor
  · intro hfw
    subst hfw
    cases op <;>
      simp_all [applyWOp, wChmod, wChown, wChtimes, wMkdir, wMkdirAll, wOpenFile,
        wRemove, wRemoveAll, wRename, wCreate, writeGate, WOp.isMutating]
  · intro b rest hfw hfss
    subst hfw
    subst hfss
    cases op <;>
      simp_all [applyWOp, wChmod, wChown, wChtimes, wMkdir, wMkdirAll, wOpenFile,
        wRemove, wRemoveAll, wRename, wCreate, writeGate, WOp.isMutating]

/-- Witness for C6 at a concrete overlay and operation, both flag states. -/
theorem c6_witness :
    applyWOp ⟨[⟨[]⟩, ⟨[]⟩], false⟩ (.remove "f") = (.permission, ⟨[⟨[]⟩, ⟨[]⟩], false⟩) ∧
    applyWOp ⟨[⟨[]⟩, ⟨[]⟩], true⟩ (.remove "f") =
      (.ok, ⟨[WBackend.applyOp ⟨[]⟩ (.remove "f"), ⟨[]⟩], true⟩) :=
  ⟨(c6_write_gating ⟨[⟨[]⟩, ⟨[]⟩], false⟩ (.remove "f") rfl).1 rfl,
   (c6_write_gating ⟨[⟨[]⟩, ⟨[]⟩], true⟩ (.remove "f") rfl).2 ⟨[]⟩ [⟨[]⟩] rfl rfl⟩

/-- **C9**: for a non-negative index, `Filesystem` returns `nil` exactly
when the index is at least `NumFilesystems`, and otherwise the `i`-th
backend of the construction-time list; a negative index is not mapped to
`nil` — the bounds check only guards the upper bound, and the indexing
panics. -/
theorem c9_filesystem_bounds (fss : List Nat) (i : Int) :
    (0 ≤ i →
      ((FilesystemAt fss i = .ok none ↔ (fss.length : Int) ≤ i) ∧
       (i < (fss.length : Int) →
         FilesystemAt fss i = .ok (some (fss.getD i.toNat 0))))) ∧
    (i < 0 → FilesystemAt fss i = .error .goPanic) := by
  unfold FilesystemAt
  constructor
  · intro h0
    constructor
    · constructor
      · intro hr
        by_contra hlt
        push_neg at hlt
        rw [if_neg (not_le.mpr hlt), if_neg (not_lt.mpr h0)] at hr
        simp at hr
      · intro hle
        rw [if_pos hle]
    · intro hlt
      rw [if_neg (not_le.mpr hlt), if_neg (not_lt.mpr h0)]
  · intro hneg
    have hlen : ¬ ((fss.length : Int) ≤ i) := by
      intro hc
      omega
    rw [if_neg hlen, if_pos hneg]

/-- Witness for C9 on a two-backend list: an in-range index, an index at
the bound, and a negative index. -/
theorem c9_witness :
    FilesystemAt [5, 6] 1 = .ok (some 6) ∧
    FilesystemAt [5, 6] 2 = .ok none ∧
    FilesystemAt [5, 6] (-1) = .error .goPanic :=
  ⟨((c9_filesystem_bounds [5, 6] 1).1 (by decide)).2 (by decide),
   ((c9_filesystem_bounds [5, 6] 2).1 (by decide)).1.mpr (by decide),
   (c9_filesystem_bounds [5, 6] (-1)).2 (by decide)⟩

/-- **C10**: a freshly opened merged-directory cursor whose merged entry
set is empty: the first read with `n ≤ 0` succeeds with an empty entry
list and no error; the cursor's sticky error is then `io.EOF`, and every
read on a cursor whose sticky error is `io.EOF` returns exactly that
end-of-entries signal and leaves the cursor unchanged (so all subsequent
reads report it too). -/
theorem c10_empty_dir_reads (n : Int) (hn : n ≤ 0) :
    (dirReadDir c10Dir n).1 = .ok [] ∧
    ((dirReadDir c10Dir n).2).err = some .eofErr ∧
    (∀ (d : DirState) (m : Int), d.err = some .eofErr →
      (dirReadDir d m).1 = .error .eofErr ∧ (dirReadDir d m).2 = d) := by
  refine ⟨?_, ?_, ?_⟩
  · simp [dirReadDir, c10Dir, freshDir, populateDir, defaultDirMerger, hn]
  · simp [dirReadDir, c10Dir, freshDir, populateDir, defaultDirMerger, hn]
  · intro d m hd
    constructor <;> simp [dirReadDir, hd]

/-- Witness for C10 at `n = -1`. -/
theorem c10_witness :
    (dirReadDir c10Dir (-1)).1 = .ok [] ∧
    ((dirReadDir c10Dir (-1)).2).err = some .eofErr ∧
    (∀ (d : DirState) (m : Int), d.err = some .eofErr →
      (dirReadDir d m).1 = .error .eofErr ∧ (dirReadDir d m).2 = d) :=
  c10_empty_dir_reads (-1) (by decide)

/-- **C8** (counterexample): `O := New([f10,f11]).Append(f12)` leaves a
backend slice with spare capacity; `d1 := O.Append(f13)` then shares
`O`'s backing array, and the subsequent `O.Append(f14)` overwrites the
shared slot, changing `d1.Filesystem(3)` from backend 13 to backend 14 —
so a later `Append` on the original does not leave the derived overlay's
backend list unchanged. -/
theorem c8_counterexample :
    AppendModel.FilesystemH AppendModel.c8d1.1 AppendModel.c8d1.2 3 = some 13 ∧
    AppendModel.FilesystemH AppendModel.c8d2.1 AppendModel.c8d1.2 3 = some 14 ∧
    (some 13 : Option Nat) ≠ some 14 :=
  ⟨rfl, rfl, by decide⟩

/-- `List.getD` after `List.set` at a different index. -/
theorem listGetD_set_ne {α : Type} (l : List α) {i j : Nat} (hij : i ≠ j)
    (x d : α) : (l.set i x).getD j d = l.getD j d := by
  simp [List.getD_eq_getElem?_getD, List.getElem?_set_ne hij]

/-- `List.getD` after `List.set` at the same (in-range) index. -/
theorem listGetD_set_self {α : Type} (l : List α) {i : Nat} (hi : i < l.length)
    (x d : α) : (l.set i x).getD i d = x := by
  simp [List.getD_eq_getElem?_getD, List.getElem?_set_self hi]

/-- `List.getD` of an append, read inside the left part. -/
theorem listGetD_append_left {α : Type} (l l' : List α) {i : Nat}
    (hi : i < l.length) (d : α) : (l ++ l').getD i d = l.getD i d := by
  simp [List.getD_eq_getElem?_getD, List.getElem?_append_left hi]

/-- **C8 amended**: `Append` never changes the view of the overlay it was
called on — after `d1 := O.Append(a)` and a later `O.Append(b)`, `O`
itself still reports all its original `Filesystem(i)` results — and the
later `O.Append(b)` leaves `d1`'s `NumFilesystems` and every
`Filesystem(i)` for `i` below `O`'s original length unchanged; only
`d1`'s appended tail slot (index = `O`'s original length) may be
overwritten through the shared backing array (which the counterexample
shows does happen). -/
theorem c8_amended_append_isolation (h : AppendModel.Heap)
    (ofs : AppendModel.OFs) (a b : Nat)
    (harr : ofs.fss.arr < h.length)
    (hlen : ofs.fss.len ≤ (h.getD ofs.fss.arr []).length) :
    (∀ i, AppendModel.FilesystemH (AppendModel.appendFs h ofs a).1 ofs i =
          AppendModel.FilesystemH h ofs i) ∧
    (∀ i, AppendModel.FilesystemH
            (AppendModel.appendFs (AppendModel.appendFs h ofs a).1 ofs b).1 ofs i =
          AppendModel.FilesystemH h ofs i) ∧
    AppendModel.NumFilesystems (AppendModel.appendFs h ofs a).2 =
      AppendModel.NumFilesystems ofs + 1 ∧
    (∀ i, i < ofs.fss.len →
      AppendModel.FilesystemH
          (AppendModel.appendFs (AppendModel.appendFs h ofs a).1 ofs b).1
          (AppendModel.appendFs h ofs a).2 i =
      AppendModel.FilesystemH (AppendModel.appendFs h ofs a).1
          (AppendModel.appendFs h ofs a).2 i) := by
  obtain ⟨⟨arr, len⟩⟩ := ofs
  simp only at harr hlen
  by_cases hsp : len < (h.getD arr []).length
  · -- both appends write in place into the shared backing array
    have ha1 : AppendModel.appendFs h ⟨⟨arr, len⟩⟩ a =
        (h.set arr ((h.getD arr []).set len a), ⟨⟨arr, len + 1⟩⟩) := by
      dsimp only [AppendModel.appendFs, AppendModel.goAppend]
      rw [if_pos hsp]
    have hA1 : ((h.set arr ((h.getD arr []).set len a)).getD arr []) =
        (h.getD arr []).set len a := listGetD_set_self h harr _ []
    have hsp2 : len < (((h.set arr ((h.getD arr []).set len a)).getD arr [])).length := by
      rw [hA1, List.length_set]; exact hsp
    have ha2 : AppendModel.appendFs (h.set arr ((h.getD arr []).set len a))
        ⟨⟨arr, len⟩⟩ b =
        ((h.set arr ((h.getD arr []).set len a)).set arr
          (((h.set arr ((h.getD arr []).set len a)).getD arr []).set len b),
         ⟨⟨arr, len + 1⟩⟩) := by
      dsimp only [AppendModel.appendFs, AppendModel.goAppend]
      rw [if_pos hsp2]
    refine ⟨?_, ?_, ?_, ?_⟩
    · intro i
      rw [ha1]
      dsimp only [AppendModel.FilesystemH]
      by_cases hi : len ≤ i
      · rw [if_pos hi, if_pos hi]
      · rw [if_neg hi, if_neg hi, hA1, listGetD_set_ne _ (by omega : len ≠ i)]
    · intro i
      rw [ha1, ha2]
      dsimp only [AppendModel.FilesystemH]
      by_cases hi : len ≤ i
      · rw [if_pos hi, if_pos hi]
      · rw [if_neg hi, if_neg hi,
          listGetD_set_self _ (by rw [List.length_set]; exact harr) _ [],
          hA1, listGetD_set_ne _ (by omega : len ≠ i),
          listGetD_set_ne _ (by omega : len ≠ i)]
    · rw [ha1]; rfl
    · intro i hi
      simp only at hi
      rw [ha1, ha2]
      dsimp only [AppendModel.FilesystemH]
      rw [if_neg (by omega : ¬ (len + 1 ≤ i)), if_neg (by omega : ¬ (len + 1 ≤ i)),
        listGetD_set_self _ (by rw [List.length_set]; exact harr) _ [],
        hA1, listGetD_set_ne _ (by omega : len ≠ i),
        listGetD_set_ne _ (by omega : len ≠ i)]
  · -- both appends allocate fresh backing arrays
    have ha1 : AppendModel.appendFs h ⟨⟨arr, len⟩⟩ a =
        (h ++ [(h.getD arr []).take len ++ [a] ++
           List.replicate ((if (h.getD arr []).length = 0 then 1
             else 2 * (h.getD arr []).length) - (len + 1)) 0],
         ⟨⟨h.length, len + 1⟩⟩) := by
      dsimp only [AppendModel.appendFs, AppendModel.goAppend]
      rw [if_neg hsp]
    have hA1 : ((h ++ [(h.getD arr []).take len ++ [a] ++
        List.replicate ((if (h.getD arr []).length = 0 then 1
          else 2 * (h.getD arr []).length) - (len + 1)) 0]).getD arr []) =
        h.getD arr [] := listGetD_append_left h _ harr []
    have hsp2 : ¬ (len < ((h ++ [(h.getD arr []).take len ++ [a] ++
        List.replicate ((if (h.getD arr []).length = 0 then 1
          else 2 * (h.getD arr []).length) - (len + 1)) 0]).getD arr []).length) := by
      rw [hA1]; exact hsp
    have ha2 : AppendModel.appendFs (h ++ [(h.getD arr []).take len ++ [a] ++
        List.replicate ((if (h.getD arr []).length = 0 then 1
          else 2 * (h.getD arr []).length) - (len + 1)) 0]) ⟨⟨arr, len⟩⟩ b =
        ((h ++ [(h.getD arr []).take len ++ [a] ++
           List.replicate ((if (h.getD arr []).length = 0 then 1
             else 2 * (h.getD arr []).length) - (len + 1)) 0]) ++
         [((h ++ [(h.getD arr []).take len ++ [a] ++
            List.replicate ((if (h.getD arr []).length = 0 then 1
              else 2 * (h.getD arr []).length) - (len + 1)) 0]).getD arr []).take len ++
          [b] ++
          List.replicate ((if ((h ++ [(h.getD arr []).take len ++ [a] ++
            List.replicate ((if (h.getD arr []).length = 0 then 1
              else 2 * (h.getD arr []).length) - (len + 1)) 0]).getD arr []).length = 0
            then 1
            else 2 * ((h ++ [(h.getD arr []).take len ++ [a] ++
              List.replicate ((if (h.getD arr []).length = 0 then 1
                else 2 * (h.getD arr []).length) - (len + 1)) 0]).getD arr []).length) -
            (len + 1)) 0],
         ⟨⟨(h ++ [(h.getD arr []).take len ++ [a] ++
            List.replicate ((if (h.getD arr []).length = 0 then 1
              else 2 * (h.getD arr []).length) - (len + 1)) 0]).length, len + 1⟩⟩) := by
      dsimp only [AppendModel.appendFs, AppendModel.goAppend]
      rw [if_neg hsp2]
    refine ⟨?_, ?_, ?_, ?_⟩
    · intro i
      rw [ha1]
      dsimp only [AppendModel.FilesystemH]
      by_cases hi : len ≤ i
      · rw [if_pos hi, if_pos hi]
      · rw [if_neg hi, if_neg hi, hA1]
    · intro i
      rw [ha1, ha2]
      dsimp only [AppendModel.FilesystemH]
      by_cases hi : len ≤ i
      · rw [if_pos hi, if_pos hi]
      · rw [if_neg hi, if_neg hi,
          listGetD_append_left _ _ (by simp; omega) [], hA1]
    · rw [ha1]; rfl
    · intro i hi
      simp only at hi
      rw [ha1, ha2]
      dsimp only [AppendModel.FilesystemH]
      rw [if_neg (by omega : ¬ (len + 1 ≤ i)), if_neg (by omega : ¬ (len + 1 ≤ i)),
        listGetD_append_left _ _ (by simp) []]

/-- `hasName` on a cons cell. -/
theorem hasName_cons (e : FileInfo) (l : List FileInfo) (s : String) :
    hasName (e :: l) s = (decide (e.name = s) || hasName l s) := by
  simp [hasName]

/-- `hasName` over an append. -/
theorem hasName_append (l l' : List FileInfo) (s : String) :
    hasName (l ++ l') s = (hasName l s || hasName l' s) := by
  simp [hasName, List.any_append]

/-- `hasStr` on a cons cell. -/
theorem hasStr_cons (t : String) (ts : List String) (s : String) :
    hasStr (t :: ts) s = (decide (t = s) || hasStr ts s) := by
  simp [hasStr]

/-- `hasStr` over an append. -/
theorem hasStr_append (s1 s2 : List String) (x : String) :
    hasStr (s1 ++ s2) x = (hasStr s1 x || hasStr s2 x) := by
  simp [hasStr, List.any_append]

/-- `hasName` is `hasStr` on the name list. -/
theorem hasName_eq_hasStr (l : List FileInfo) (s : String) :
    hasName l s = hasStr (namesOf l) s := by
  induction l with
  | nil => rfl
  | cons e rest ih =>
    rw [hasName_cons]
    show _ = hasStr (e.name :: namesOf rest) s
    rw [hasStr_cons, ih]

/-- One step of `defaultDirMerger`. -/
theorem defaultDirMerger_cons (l : List FileInfo) (e : FileInfo)
    (b : List FileInfo) :
    defaultDirMerger l (e :: b) =
      defaultDirMerger (if hasName l e.name then l else l ++ [e]) b := rfl

/-- `defaultDirMerger` with an empty right argument. -/
theorem defaultDirMerger_nil_right (l : List FileInfo) :
    defaultDirMerger l [] = l := rfl

/-- Merging a concatenation is merging twice (the merger is a left fold). -/
theorem defaultDirMerger_append_right (l xs ys : List FileInfo) :
    defaultDirMerger l (xs ++ ys) =
      defaultDirMerger (defaultDirMerger l xs) ys :=
  List.foldl_append _ _ _ _

/-- The names present in a merge result are exactly those of its inputs. -/
theorem hasName_defaultDirMerger (b l : List FileInfo) (s : String) :
    hasName (defaultDirMerger l b) s = (hasName l s || hasName b s) := by
  induction b generalizing l with
  | nil => simp [defaultDirMerger_nil_right, hasName]
  | cons e rest ih =>
    rw [defaultDirMerger_cons, ih, hasName_cons]
    by_cases he : hasName l e.name = true
    · rw [if_pos he]
      by_cases hes : e.name = s
      · have hls : hasName l s = true := hes ▸ he
        simp [hls]
      · simp [hes]
    · rw [if_neg he, hasName_append, hasName_cons]
      simp [hasName, Bool.or_assoc]

/-- Merging a name-unique batch appends exactly its unseen-name entries. -/
theorem defaultDirMerger_eq_append_filter (b l : List FileInfo)
    (hb : nodupNamesB b = true) :
    defaultDirMerger l b = l ++ b.filter (fun e => !hasName l e.name) := by
  induction b generalizing l with
  | nil => simp [defaultDirMerger_nil_right]
  | cons e rest ih =>
    rw [show nodupNamesB (e :: rest) = (!(hasName rest e.name) && nodupNamesB rest)
        from rfl, Bool.and_eq_true, Bool.not_eq_true'] at hb
    obtain ⟨hner, hrest⟩ := hb
    rw [defaultDirMerger_cons]
    by_cases he : hasName l e.name = true
    · rw [if_pos he, ih _ hrest, List.filter_cons]
      simp [he]
    · have he2 : hasName l e.name = false := by
        revert he
        cases hasName l e.name <;> simp
      rw [if_neg he, ih _ hrest, List.filter_cons]
      have hfc : ∀ x ∈ rest,
          (!hasName (l ++ [e]) x.name) = (!hasName l x.name) := by
        intro x hx
        have hxe : ¬ (x.name = e.name) := by
          intro hcontra
          have : hasName rest e.name = true := by
            simp only [hasName, List.any_eq_true, decide_eq_true_eq]
            exact ⟨x, hx, hcontra⟩
          rw [this] at hner
          cases hner
        have hde : (decide (e.name = x.name)) = false := by
          simp only [decide_eq_false_iff_not]
          intro hcontra
          exact hxe hcontra.symm
        rw [hasName_append, hasName_cons, hde]
        simp [hasName]
      rw [List.filter_congr hfc]
      simp [he2, List.append_assoc]

/-- Merging adds nothing when every incoming name is already present. -/
theorem defaultDirMerger_absorb (b l : List FileInfo)
    (hsub : ∀ s, hasName b s = true → hasName l s = true) :
    defaultDirMerger l b = l := by
  induction b generalizing l with
  | nil => rfl
  | cons e rest ih =>
    rw [defaultDirMerger_cons]
    have he : hasName l e.name = true := by
      refine hsub e.name ?_
      rw [hasName_cons]
      simp
    rw [if_pos he]
    refine ih l (fun s hs => hsub s ?_)
    rw [hasName_cons, hs]
    simp

/-- Name-uniqueness of a snoc. -/
theorem nodupNamesB_append_singleton (l : List FileInfo) (e : FileInfo) :
    nodupNamesB (l ++ [e]) = (nodupNamesB l && !hasName l e.name) := by
  induction l with
  | nil => simp [nodupNamesB, hasName]
  | cons x rest ih =>
    show (!(hasName (rest ++ [e]) x.name) && nodupNamesB (rest ++ [e])) = _
    rw [ih, hasName_append, hasName_cons]
    show _ = ((!hasName rest x.name && nodupNamesB rest) &&
      !(decide (x.name = e.name) || hasName rest e.name))
    have hcomm : (decide (e.name = x.name)) = decide (x.name = e.name) := by
      simp [eq_comm]
    rw [hcomm]
    simp only [hasName, List.any_nil, Bool.or_false]
    cases rest.any fun a => decide (a.name = x.name) <;>
      cases rest.any fun a => decide (a.name = e.name) <;>
      cases nodupNamesB rest <;>
      cases decide (x.name = e.name) <;> rfl

/-- The merger never introduces duplicate names. -/
theorem nodupNamesB_defaultDirMerger (b l : List FileInfo)
    (hl : nodupNamesB l = true) :
    nodupNamesB (defaultDirMerger l b) = true := by
  induction b generalizing l with
  | nil => exact hl
  | cons e rest ih =>
    rw [defaultDirMerger_cons]
    by_cases he : hasName l e.name = true
    · rw [if_pos he]; exact ih l hl
    · have he2 : hasName l e.name = false := by
        revert he
        cases hasName l e.name <;> simp
      rw [if_neg he]
      refine ih (l ++ [e]) ?_
      rw [nodupNamesB_append_singleton, hl, he2]
      rfl

/-- Merging a name-unique list into an empty buffer copies it. -/
theorem defaultDirMerger_nil_left (b : List FileInfo)
    (hb : nodupNamesB b = true) :
    defaultDirMerger [] b = b := by
  rw [defaultDirMerger_eq_append_filter _ _ hb]
  simp [hasName]

/-- The Go fold of name-unique backend listings is the claim-shaped
merged view. -/
theorem foldl_merge_spec (bs : List (List FileInfo)) (acc : List FileInfo)
    (seen : List String) (hu : ∀ b ∈ bs, nodupNamesB b = true)
    (hcorr : ∀ s, hasName acc s = hasStr seen s) :
    bs.foldl defaultDirMerger acc = acc ++ specMergeGo seen bs := by
  induction bs generalizing acc seen with
  | nil => simp [specMergeGo]
  | cons b rest ih =>
    have hb : nodupNamesB b = true := hu b (by simp)
    have hrest : ∀ x ∈ rest, nodupNamesB x = true :=
      fun x hx => hu x (by simp [hx])
    show rest.foldl defaultDirMerger (defaultDirMerger acc b) = _
    rw [ih (defaultDirMerger acc b) (seen ++ namesOf b) hrest
      (fun s => by
        rw [hasName_defaultDirMerger, hcorr s, hasName_eq_hasStr, hasStr_append])]
    rw [defaultDirMerger_eq_append_filter _ _ hb,
      List.filter_congr (fun x _ => by rw [hcorr x.name])]
    show _ = acc ++ (b.filter (fun e => !hasStr seen e.name) ++
      specMergeGo (seen ++ namesOf b) rest)
    simp [List.append_assoc]

/-- Populating from all-successful owner listings is the Go fold. -/
theorem populateDir_ok (bs : List (List FileInfo)) (acc : List FileInfo) :
    populateDir (bs.map Except.ok) acc = (bs.foldl defaultDirMerger acc, none) := by
  induction bs generalizing acc with
  | nil => rfl
  | cons b rest ih =>
    show populateDir (rest.map Except.ok) (defaultDirMerger acc b) = _
    exact ih (defaultDirMerger acc b)

/-- **C4**: for a directory owned by backends `B1..Bn` (each listing
name-unique, as directory listings are), a full unpaginated read of the
freshly opened merged cursor returns `B1`'s entries first, in `B1`'s own
order, followed for each later backend, in backend order, by its entries
whose names do not duplicate any earlier backend's entry name — the
earlier (higher-priority) backend's entry survives. -/
theorem c4_merged_dir_order (bs : List (List FileInfo)) (hne : bs ≠ [])
    (hu : ∀ b ∈ bs, nodupNamesB b = true) :
    (dirReadDir (freshDir (bs.map Except.ok)) (-1)).1 =
      .ok ((specMergedView bs).map some) := by
  have hfold := foldl_merge_spec bs [] [] hu (fun s => rfl)
  have hlen : ¬ ((bs.map (Except.ok :
      List FileInfo → Except Err (List FileInfo))).length = 0 ∧
      (0 : Nat) = 0) := by
    simp only [List.length_map]
    intro hc
    exact hne (List.length_eq_zero.mp hc.1)
  simp only [dirReadDir, freshDir, if_neg hlen, populateDir_ok,
    List.drop_zero, hfold]
  simp [specMergedView, hne]

/-- Witness for C4: two backends with a shared name `"b"`; the earlier
backend's `"b"` entry (id 2) survives, the later backend contributes only
`"c"`. -/
theorem c4_witness :
    (dirReadDir (freshDir ([[c2e1, c2e2], [⟨"b", false, 9⟩, c2e3]].map
        Except.ok)) (-1)).1 =
      .ok [some c2e1, some c2e2, some c2e3] :=
  c4_merged_dir_order [[c2e1, c2e2], [⟨"b", false, 9⟩, c2e3]]
    (by decide) (by decide)

/-- `firstNonNotFound` over an append: the left part wins unless it is
exhausted with not-found. -/
theorem firstNonNotFound_append (xs ys : List (Except Err FileInfo)) :
    firstNonNotFound (xs ++ ys) =
      match firstNonNotFound xs with
      | .error .notFound => firstNonNotFound ys
      | r => r := by
  induction xs with
  | nil => rfl
  | cons r rest ih =>
    cases r with
    | ok v => rfl
    | error e =>
      cases e with
      | notFound => exact ih
      | permission => rfl
      | eofErr => rfl
      | closedErr => rfl
      | goPanic => rfl
      | other n => rfl

/-- An all-not-found prefix of lookup outcomes is skipped. -/
theorem firstNonNotFound_prefix_notFound (pre : List (Except Err FileInfo))
    (hpre : ∀ x ∈ pre, x = .error .notFound)
    (rest : List (Except Err FileInfo)) :
    firstNonNotFound (pre ++ rest) = firstNonNotFound rest := by
  induction pre with
  | nil => rfl
  | cons x xs ih =>
    have hx : x = .error .notFound := hpre x (by simp)
    rw [hx]
    show firstNonNotFound (xs ++ rest) = _
    exact ih (fun y hy => hpre y (by simp [hy]))

mutual

/-- The resolution engine on a single backend node, projected to its
metadata outcome, is the first non-not-found leaf stat outcome in
depth-first order. -/
theorem statRecursive_eq_dfs (fs : Fs) (name : String) :
    (statRecursive fs name false).map (fun r => r.2.1) =
      firstNonNotFound (dfsLeafStats fs name) := by
  cases fs with
  | leaf l =>
    cases h : l.statFn name with
    | ok fi => simp [statRecursive, dfsLeafStats, firstNonNotFound, h, Except.map]
    | error e =>
      cases e <;>
        simp [statRecursive, dfsLeafStats, firstNonNotFound, h, Except.map]
  | overlay fss =>
    have ih := ofsStat_eq_dfs fss name
    cases h : ofsStat fss name false with
    | ok r =>
      obtain ⟨o, fi, fl⟩ := r
      rw [show dfsLeafStats (.overlay fss) name = dfsLeafStatsList fss name
        from rfl, ← ih, h]
      simp [statRecursive, h, Except.map]
    | error e =>
      rw [show dfsLeafStats (.overlay fss) name = dfsLeafStatsList fss name
        from rfl, ← ih, h]
      cases e <;> simp [statRecursive, h, Except.map]

/-- The resolution engine on a backend list, projected to its metadata
outcome, is the first non-not-found leaf stat outcome in depth-first
order. -/
theorem ofsStat_eq_dfs (fss : List Fs) (name : String) :
    (ofsStat fss name false).map (fun r => r.2.1) =
      firstNonNotFound (dfsLeafStatsList fss name) := by
  cases fss with
  | nil => rfl
  | cons f rest =>
    have ih1 := statRecursive_eq_dfs f name
    have ih2 := ofsStat_eq_dfs rest name
    rw [show dfsLeafStatsList (f :: rest) name =
        dfsLeafStats f name ++ dfsLeafStatsList rest name from rfl,
      firstNonNotFound_append, ← ih1]
    cases h : statRecursive f name false with
    | ok r => simp [ofsStat, h, Except.map]
    | error e =>
      cases e <;> rw [← ih2] <;> simp [ofsStat, h, Except.map]

end

/-- **C5**: for every overlay and path, the public `Stat` outcome is
exactly the first outcome in the depth-first (priority-respecting,
recursing into nested overlays) leaf sequence that is a success or a
non-not-found error — so the first successful lookup wins and the search
short-circuits, any non-not-found backend error propagates and aborts the
search without being masked by lower-priority backends, and in particular
a path present in multiple backends resolves to the earliest backend in
priority order (second conjunct). -/
theorem c5_resolution_first_wins :
    (∀ (fss : List Fs) (name : String),
      OverlayStat fss name = firstNonNotFound (dfsLeafStatsList fss name)) ∧
    (∀ (fss : List Fs) (name : String)
      (pre post : List (Except Err FileInfo)) (fi : FileInfo),
      dfsLeafStatsList fss name = pre ++ .ok fi :: post →
      (∀ x ∈ pre, x = .error .notFound) →
      OverlayStat fss name = .ok fi) := by
  have hmain : ∀ (fss : List Fs) (name : String),
      OverlayStat fss name = firstNonNotFound (dfsLeafStatsList fss name) :=
    fun fss name => ofsStat_eq_dfs fss name
  refine ⟨hmain, ?_⟩
  intro fss name pre post fi hdfs hpre
  rw [hmain, hdfs, firstNonNotFound_prefix_notFound pre hpre]
  rfl

/-- Witness for C5: three backends, the first not-found, the second and
third both owning `"f"`; `Stat` returns the second backend's metadata. -/
theorem c5_witness :
    OverlayStat [.leaf c5LeafNF, .leaf c5Leaf1, .leaf c5Leaf2] "f" =
      .ok ⟨"f", false, 1⟩ :=
  c5_resolution_first_wins.2 [.leaf c5LeafNF, .leaf c5Leaf1, .leaf c5Leaf2]
    "f" [.error .notFound] [.ok ⟨"f", false, 2⟩] ⟨"f", false, 1⟩ rfl
    (fun _ hx => List.mem_singleton.mp hx)

/-- Resolution through a single nested overlay backend: the outer overlay
reports the nested overlay as owner, the same metadata, flag `false`, and
the same errors. -/
theorem ofsStat_single_overlay (L : List Fs) (name : String) :
    ofsStat [Fs.overlay L] name false =
      match ofsStat L name false with
      | .ok r => .ok (Fs.overlay L, r.2.1, false)
      | .error e => .error e := by
  cases h : ofsStat L name false with
  | ok r =>
    obtain ⟨o, fi, fl⟩ := r
    simp [ofsStat, statRecursive, h]
  | error e =>
    cases e <;> simp [ofsStat, statRecursive, h]

/-- `Stat` through a single nested overlay backend is `Stat` on the
nested backend list. -/
theorem OverlayStat_single_overlay (L : List Fs) (name : String) :
    OverlayStat [Fs.overlay L] name = OverlayStat L name := by
  rw [OverlayStat, OverlayStat, ofsStat_single_overlay]
  cases h : ofsStat L name false with
  | ok r => obtain ⟨o, fi, fl⟩ := r; simp [Except.map]
  | error e => simp [Except.map]

/-- Unfolding of `collectDirsRecursive` on a leaf. -/
theorem collectDirsRecursive_leaf (l : LeafFs) (name : String) :
    collectDirsRecursive (.leaf l) name =
      (match nodeStat (.leaf l) name with
       | .ok fi => if fi.isDir then [Fs.leaf l] else []
       | .error _ => []) := by
  show _ ++ [] = _
  rw [List.append_nil]

/-- Unfolding of `collectDirsRecursive` on an overlay node. -/
theorem collectDirsRecursive_overlay (fss : List Fs) (name : String) :
    collectDirsRecursive (.overlay fss) name =
      ((match nodeStat (.overlay fss) name with
        | .ok fi => if fi.isDir then [Fs.overlay fss] else []
        | .error _ => []) ++ collectDirsList fss name) := rfl

mutual

/-- Collected directory owners are subtrees: their depth is bounded by
the node's depth. -/
theorem depth_of_mem_collect (f : Fs) (name : String) :
    ∀ o ∈ collectDirsRecursive f name, Fs.depth o ≤ Fs.depth f := by
  intro o ho
  cases f with
  | leaf l =>
    rw [collectDirsRecursive_leaf] at ho
    cases hst : nodeStat (.leaf l) name with
    | ok fi =>
      rw [hst] at ho
      dsimp only at ho
      by_cases hdir : fi.isDir = true
      · rw [if_pos hdir] at ho
        rw [List.mem_singleton.mp ho]
      · rw [if_neg hdir] at ho
        cases ho
    | error e =>
      rw [hst] at ho
      dsimp only at ho
      cases ho
  | overlay fss =>
    rw [collectDirsRecursive_overlay] at ho
    rcases List.mem_append.mp ho with h1 | h2
    · cases hst : nodeStat (.overlay fss) name with
      | ok fi =>
        rw [hst] at h1
        dsimp only at h1
        by_cases hdir : fi.isDir = true
        · rw [if_pos hdir] at h1
          rw [List.mem_singleton.mp h1]
        · rw [if_neg hdir] at h1
          cases h1
      | error e =>
        rw [hst] at h1
        dsimp only at h1
        cases h1
    · have := depth_of_mem_collectList fss name o h2
      calc Fs.depth o ≤ fssDepth fss := this
        _ ≤ fssDepth fss + 1 := Nat.le_succ _
        _ = Fs.depth (.overlay fss) := rfl

/-- Collected directory owners of a backend list are subtrees. -/
theorem depth_of_mem_collectList (fss : List Fs) (name : String) :
    ∀ o ∈ collectDirsList fss name, Fs.depth o ≤ fssDepth fss := by
  intro o ho
  cases fss with
  | nil => cases ho
  | cons f rest =>
    rcases List.mem_append.mp ho with h1 | h2
    · exact le_trans (depth_of_mem_collect f name o h1)
        (le_max_left _ _)
    · exact le_trans (depth_of_mem_collectList rest name o h2)
        (le_max_right _ _)

end

mutual

/-- The owner returned by `statRecursive` is a subtree of the searched
node. -/
theorem depth_statRecursive_owner (f : Fs) (name : String) (lst : Bool)
    (o : Fs) (fi : FileInfo) (fl : Bool)
    (h : statRecursive f name lst = .ok (o, fi, fl)) :
    Fs.depth o ≤ Fs.depth f := by
  cases f with
  | leaf l =>
    have ho : o = .leaf l := by
      cases lst with
      | false =>
        cases hst : l.statFn name <;> simp [statRecursive, hst] at h
        exact h.1.symm
      | true =>
        cases hlf : l.lstatFn with
        | none =>
          cases hst : l.statFn name <;> simp [statRecursive, hlf, hst] at h
          exact h.1.symm
        | some lf =>
          cases hst : lf name with
          | ok p =>
            obtain ⟨fi2, fl2⟩ := p
            simp [statRecursive, hlf, hst] at h
            exact h.1.symm
          | error e => simp [statRecursive, hlf, hst] at h
    rw [ho]
  | overlay fss =>
    rw [statRecursive] at h
    cases hin : ofsStat fss name false with
    | ok r =>
      obtain ⟨o2, fi2, fl2⟩ := r
      rw [hin] at h
      simp at h
      rw [← h.1]
    | error e =>
      rw [hin] at h
      dsimp only at h
      by_cases he : e = Err.notFound
      · rw [if_pos he] at h
        calc Fs.depth o ≤ fssDepth fss :=
            depth_ofsStat_owner fss name lst o fi fl h
          _ ≤ fssDepth fss + 1 := Nat.le_succ _
          _ = Fs.depth (.overlay fss) := rfl
      · rw [if_neg he] at h
        cases h

/-- The owner returned by `ofsStat` is a subtree of the searched list. -/
theorem depth_ofsStat_owner (fss : List Fs) (name : String) (lst : Bool)
    (o : Fs) (fi : FileInfo) (fl : Bool)
    (h : ofsStat fss name lst = .ok (o, fi, fl)) :
    Fs.depth o ≤ fssDepth fss := by
  cases fss with
  | nil => cases h
  | cons f rest =>
    rw [ofsStat] at h
    cases hsr : statRecursive f name lst with
    | ok r =>
      rw [hsr] at h
      simp at h
      rw [h] at hsr
      exact le_trans (depth_statRecursive_owner f name lst o fi fl hsr)
        (le_max_left _ _)
    | error e =>
      rw [hsr] at h
      dsimp only at h
      by_cases he : e = Err.notFound
      · rw [if_pos he] at h
        exact le_trans (depth_ofsStat_owner rest name lst o fi fl h)
          (le_max_right _ _)
      · rw [if_neg he] at h
        cases h

end

/-- `openAllB` on a leaf ignores the fuel. -/
theorem openAllB_leaf (b : Nat) (l : LeafFs) (name : String) :
    openAllB b (.leaf l) name = l.entriesFn name := by
  cases b <;> rfl

/-- Unfolding of `openAllB` on an overlay node with positive fuel. -/
theorem openAllB_succ_overlay (b : Nat) (fss : List Fs) (name : String) :
    openAllB (b + 1) (.overlay fss) name =
      (match ofsStat fss name false with
       | .error e => .error e
       | .ok (owner, fi, _) =>
         if fi.isDir then
           match collectDirsList fss name with
           | [] => .error .notFound
           | [o] => openAllB b o name
           | owners => owners.foldl (openFoldStep b name) (.ok [])
         else openAllB b owner name) := rfl

/-- The owner-merging fold keeps an error accumulator. -/
theorem foldl_openFoldStep_error (b : Nat) (name : String)
    (owners : List Fs) (e : Err) :
    owners.foldl (openFoldStep b name) (.error e) = .error e := by
  induction owners with
  | nil => rfl
  | cons o rest ih => exact ih

/-- The owner-merging fold is the fold of the collected per-owner entry
lists. -/
theorem foldl_openFoldStep_spec (b : Nat) (name : String)
    (owners : List Fs) (acc : List FileInfo) :
    owners.foldl (openFoldStep b name) (.ok acc) =
      (collectResults b owners name).map
        (fun ess => ess.foldl defaultDirMerger acc) := by
  induction owners generalizing acc with
  | nil => rfl
  | cons o rest ih =>
    cases ho : openAllB b o name with
    | error e =>
      show rest.foldl _ (openFoldStep b name (.ok acc) o) = _
      rw [show openFoldStep b name (.ok acc) o = .error e by
        simp [openFoldStep, ho]]
      rw [foldl_openFoldStep_error]
      simp [collectResults, ho, Except.map]
    | ok es =>
      show rest.foldl _ (openFoldStep b name (.ok acc) o) = _
      rw [show openFoldStep b name (.ok acc) o = .ok (defaultDirMerger acc es) by
        simp [openFoldStep, ho]]
      rw [ih]
      simp only [collectResults, ho]
      cases hr : collectResults b rest name with
      | error e2 => simp [Except.map]
      | ok ess => simp [Except.map]

/-- `collectResults` only depends on the per-owner open results. -/
theorem collectResults_congr (x y : Nat) (owners : List Fs) (name : String)
    (hpt : ∀ o ∈ owners, openAllB x o name = openAllB y o name) :
    collectResults x owners name = collectResults y owners name := by
  induction owners with
  | nil => rfl
  | cons o rest ih =>
    simp only [collectResults]
    rw [hpt o (by simp), ih (fun o2 ho2 => hpt o2 (by simp [ho2]))]

/-- Fuel irrelevance: any fuel at least the node's depth gives the same
result. -/
theorem openAllB_fuel (b : Nat) : ∀ (fs : Fs) (b2 : Nat) (name : String),
    Fs.depth fs ≤ b → Fs.depth fs ≤ b2 →
    openAllB b fs name = openAllB b2 fs name := by
  induction b with
  | zero =>
    intro fs b2 name h1 h2
    cases fs with
    | leaf l => rw [openAllB_leaf, openAllB_leaf]
    | overlay fss =>
      exfalso
      have : fssDepth fss + 1 ≤ 0 := h1
      omega
  | succ b ih =>
    intro fs b2 name h1 h2
    cases fs with
    | leaf l => rw [openAllB_leaf, openAllB_leaf]
    | overlay fss =>
      have hd : fssDepth fss ≤ b := by
        have : fssDepth fss + 1 ≤ b + 1 := h1
        omega
      cases b2 with
      | zero =>
        exfalso
        have : fssDepth fss + 1 ≤ 0 := h2
        omega
      | succ b2 =>
        have hd2 : fssDepth fss ≤ b2 := by
          have : fssDepth fss + 1 ≤ b2 + 1 := h2
          omega
        rw [openAllB_succ_overlay, openAllB_succ_overlay]
        cases hstat : ofsStat fss name false with
        | error e => rfl
        | ok r =>
          obtain ⟨owner, fi, fl⟩ := r
          have howner : Fs.depth owner ≤ fssDepth fss :=
            depth_ofsStat_owner fss name false owner fi fl hstat
          dsimp only
          by_cases hdir : fi.isDir = true
          · rw [if_pos hdir, if_pos hdir]
            cases hcol : collectDirsList fss name with
            | nil => rfl
            | cons o1 rest1 =>
              cases rest1 with
              | nil =>
                dsimp only
                have ho1 : Fs.depth o1 ≤ fssDepth fss :=
                  depth_of_mem_collectList fss name o1
                    (by rw [hcol]; exact List.mem_singleton.mpr rfl)
                exact ih o1 b2 name (le_trans ho1 hd) (le_trans ho1 hd2)
              | cons o2 rest2 =>
                dsimp only
                rw [foldl_openFoldStep_spec, foldl_openFoldStep_spec,
                  collectResults_congr b b2 (o1 :: o2 :: rest2) name
                    (fun o ho => by
                      have hdo : Fs.depth o ≤ fssDepth fss :=
                        depth_of_mem_collectList fss name o
                          (by rw [hcol]; exact ho)
                      exact ih o b2 name (le_trans hdo hd) (le_trans hdo hd2))]
          · rw [if_neg hdir, if_neg hdir]
            exact ih owner b2 name (le_trans howner hd) (le_trans howner hd2)

/-- A successful `statRecursive` on a leaf reports the leaf as owner. -/
theorem statRecursive_leaf_owner (l : LeafFs) (name : String) (lst : Bool)
    (o : Fs) (fi : FileInfo) (fl : Bool)
    (h : statRecursive (.leaf l) name lst = .ok (o, fi, fl)) :
    o = .leaf l := by
  cases lst with
  | false =>
    cases hst : l.statFn name <;> simp [statRecursive, hst] at h
    exact h.1.symm
  | true =>
    cases hlf : l.lstatFn with
    | none =>
      cases hst : l.statFn name <;> simp [statRecursive, hlf, hst] at h
      exact h.1.symm
    | some lf =>
      cases hst : lf name with
      | ok p =>
        obtain ⟨fi2, fl2⟩ := p
        simp [statRecursive, hlf, hst] at h
        exact h.1.symm
      | error e => simp [statRecursive, hlf, hst] at h

mutual

/-- Leaf-listing uniqueness is inherited by every collected owner. -/
theorem unique_of_mem_collect (f : Fs) (name : String)
    (hu : listingsUniqueAt f name = true) :
    ∀ o ∈ collectDirsRecursive f name, listingsUniqueAt o name = true := by
  intro o ho
  cases f with
  | leaf l =>
    rw [collectDirsRecursive_leaf] at ho
    cases hst : nodeStat (.leaf l) name with
    | ok fi =>
      rw [hst] at ho
      dsimp only at ho
      by_cases hdir : fi.isDir = true
      · rw [if_pos hdir] at ho
        rw [List.mem_singleton.mp ho]
        exact hu
      · rw [if_neg hdir] at ho
        cases ho
    | error e =>
      rw [hst] at ho
      dsimp only at ho
      cases ho
  | overlay fss =>
    rw [collectDirsRecursive_overlay] at ho
    rcases List.mem_append.mp ho with h1 | h2
    · cases hst : nodeStat (.overlay fss) name with
      | ok fi =>
        rw [hst] at h1
        dsimp only at h1
        by_cases hdir : fi.isDir = true
        · rw [if_pos hdir] at h1
          rw [List.mem_singleton.mp h1]
          exact hu
        · rw [if_neg hdir] at h1
          cases h1
      | error e =>
        rw [hst] at h1
        dsimp only at h1
        cases h1
    · exact unique_of_mem_collectList fss name hu o h2

/-- Leaf-listing uniqueness is inherited by owners collected from a
backend list. -/
theorem unique_of_mem_collectList (fss : List Fs) (name : String)
    (hu : listingsUniqueAtList fss name = true) :
    ∀ o ∈ collectDirsList fss name, listingsUniqueAt o name = true := by
  intro o ho
  cases fss with
  | nil => cases ho
  | cons f rest =>
    have hu2 := hu
    rw [show listingsUniqueAtList (f :: rest) name =
      (listingsUniqueAt f name && listingsUniqueAtList rest name) from rfl,
      Bool.and_eq_true] at hu2
    rcases List.mem_append.mp ho with h1 | h2
    · exact unique_of_mem_collect f name hu2.1 o h1
    · exact unique_of_mem_collectList rest name hu2.2 o h2

end

mutual

/-- Leaf-listing uniqueness is inherited by the owner `statRecursive`
reports. -/
theorem unique_statRecursive_owner (f : Fs) (name : String) (lst : Bool)
    (o : Fs) (fi : FileInfo) (fl : Bool)
    (hu : listingsUniqueAt f name = true)
    (h : statRecursive f name lst = .ok (o, fi, fl)) :
    listingsUniqueAt o name = true := by
  cases f with
  | leaf l =>
    rw [statRecursive_leaf_owner l name lst o fi fl h]
    exact hu
  | overlay fss =>
    rw [statRecursive] at h
    cases hin : ofsStat fss name false with
    | ok r =>
      obtain ⟨o2, fi2, fl2⟩ := r
      rw [hin] at h
      simp at h
      rw [← h.1]
      exact hu
    | error e =>
      rw [hin] at h
      dsimp only at h
      by_cases he : e = Err.notFound
      · rw [if_pos he] at h
        exact unique_ofsStat_owner fss name lst o fi fl hu h
      · rw [if_neg he] at h
        cases h

/-- Leaf-listing uniqueness is inherited by the owner `ofsStat`
reports. -/
theorem unique_ofsStat_owner (fss : List Fs) (name : String) (lst : Bool)
    (o : Fs) (fi : FileInfo) (fl : Bool)
    (hu : listingsUniqueAtList fss name = true)
    (h : ofsStat fss name lst = .ok (o, fi, fl)) :
    listingsUniqueAt o name = true := by
  cases fss with
  | nil => cases h
  | cons f rest =>
    have hu2 := hu
    rw [show listingsUniqueAtList (f :: rest) name =
      (listingsUniqueAt f name && listingsUniqueAtList rest name) from rfl,
      Bool.and_eq_true] at hu2
    rw [ofsStat] at h
    cases hsr : statRecursive f name lst with
    | ok r =>
      rw [hsr] at h
      simp at h
      rw [h] at hsr
      exact unique_statRecursive_owner f name lst o fi fl hu2.1 hsr
    | error e =>
      rw [hsr] at h
      dsimp only at h
      by_cases he : e = Err.notFound
      · rw [if_pos he] at h
        exact unique_ofsStat_owner rest name lst o fi fl hu2.2 h
      · rw [if_neg he] at h
        cases h

end

/-- Folding name-unique buffers through the merger stays name-unique. -/
theorem nodupNamesB_foldl_merge (ess : List (List FileInfo))
    (acc : List FileInfo) (hacc : nodupNamesB acc = true) :
    nodupNamesB (ess.foldl defaultDirMerger acc) = true := by
  induction ess generalizing acc with
  | nil => exact hacc
  | cons es rest ih =>
    exact ih (defaultDirMerger acc es) (nodupNamesB_defaultDirMerger es acc hacc)

/-- Folding the merger over per-owner lists merges their concatenation. -/
theorem foldl_merge_flatten (ess : List (List FileInfo))
    (acc : List FileInfo) :
    ess.foldl defaultDirMerger acc = defaultDirMerger acc ess.flatten := by
  induction ess generalizing acc with
  | nil => rfl
  | cons es rest ih =>
    show rest.foldl _ (defaultDirMerger acc es) = _
    rw [ih, show ((es :: rest).flatten) = es ++ rest.flatten from rfl,
      defaultDirMerger_append_right]

/-- Names present after folding the merger over per-owner lists. -/
theorem hasName_foldl_merge (ess : List (List FileInfo))
    (acc : List FileInfo) (s : String) :
    hasName (ess.foldl defaultDirMerger acc) s =
      (hasName acc s || hasName ess.flatten s) := by
  rw [foldl_merge_flatten, hasName_defaultDirMerger]

/-- A successful `openAllB` result is name-unique when every leaf listing
at the path is (directory invariant). -/
theorem openAllB_nodup (b : Nat) : ∀ (fs : Fs) (name : String)
    (es : List FileInfo), listingsUniqueAt fs name = true →
    openAllB b fs name = .ok es → nodupNamesB es = true := by
  induction b with
  | zero =>
    intro fs name es hu h
    cases fs with
    | leaf l =>
      rw [openAllB_leaf] at h
      have hu2 := hu
      rw [show listingsUniqueAt (.leaf l) name = (match l.entriesFn name with
        | .ok es2 => nodupNamesB es2
        | .error _ => true) from rfl, h] at hu2
      exact hu2
    | overlay fss =>
      rw [show openAllB 0 (.overlay fss) name = .error (.other 0) from rfl] at h
      exact Except.noConfusion h
  | succ b ih =>
    intro fs name es hu h
    cases fs with
    | leaf l =>
      rw [openAllB_leaf] at h
      have hu2 := hu
      rw [show listingsUniqueAt (.leaf l) name = (match l.entriesFn name with
        | .ok es2 => nodupNamesB es2
        | .error _ => true) from rfl, h] at hu2
      exact hu2
    | overlay fss =>
      rw [openAllB_succ_overlay] at h
      cases hstat : ofsStat fss name false with
      | error e =>
        rw [hstat] at h
        dsimp only at h
        exact Except.noConfusion h
      | ok r =>
        obtain ⟨owner, fi, fl⟩ := r
        rw [hstat] at h
        dsimp only at h
        by_cases hdir : fi.isDir = true
        · rw [if_pos hdir] at h
          cases hcol : collectDirsList fss name with
          | nil =>
            rw [hcol] at h
            exact Except.noConfusion h
          | cons o1 rest1 =>
            rw [hcol] at h
            cases rest1 with
            | nil =>
              dsimp only at h
              have hu1 : listingsUniqueAt o1 name = true :=
                unique_of_mem_collectList fss name hu o1
                  (by rw [hcol]; exact List.mem_singleton.mpr rfl)
              exact ih o1 name es hu1 h
            | cons o2 rest2 =>
              dsimp only at h
              rw [foldl_openFoldStep_spec] at h
              cases hcr : collectResults b (o1 :: o2 :: rest2) name with
              | error e2 =>
                rw [hcr] at h
                simp [Except.map] at h
              | ok ess =>
                rw [hcr] at h
                simp only [Except.map, Except.ok.injEq] at h
                rw [← h]
                exact nodupNamesB_foldl_merge ess [] rfl
        · rw [if_neg hdir] at h
          have huo : listingsUniqueAt owner name = true :=
            unique_ofsStat_owner fss name false owner fi fl hu hstat
          exact ih owner name es huo h

/-- Opening and fully reading a directory through a single nested overlay
backend equals doing so on the nested overlay directly, when every leaf
listing at the path is name-unique. -/
theorem openAll_single_overlay (L : List Fs) (name : String)
    (hu : listingsUniqueAtList L name = true) :
    Fs.openAll (.overlay [.overlay L]) name = Fs.openAll (.overlay L) name := by
  have hdep : Fs.depth (.overlay [.overlay L]) = (fssDepth L + 1) + 1 := by
    show max (fssDepth L + 1) 0 + 1 = (fssDepth L + 1) + 1
    rw [Nat.max_zero]
  rw [Fs.openAll, Fs.openAll, hdep,
    show Fs.depth (.overlay L) = fssDepth L + 1 from rfl,
    openAllB_succ_overlay, ofsStat_single_overlay]
  cases hstat : ofsStat L name false with
  | error e =>
    dsimp only
    rw [openAllB_succ_overlay, hstat]
  | ok r =>
    obtain ⟨oIn, fi, fl⟩ := r
    dsimp only
    by_cases hdir : fi.isDir = true
    · rw [if_pos hdir]
      have hnode : nodeStat (.overlay L) name = .ok fi := by
        show OverlayStat L name = .ok fi
        rw [OverlayStat, hstat]
        rfl
      have hcol : collectDirsList [Fs.overlay L] name =
          Fs.overlay L :: collectDirsList L name := by
        show collectDirsRecursive (.overlay L) name ++ collectDirsList [] name =
          _
        rw [collectDirsRecursive_overlay, hnode]
        dsimp only
        rw [if_pos hdir]
        simp [collectDirsList]
      rw [hcol]
      cases hcolL : collectDirsList L name with
      | nil =>
        dsimp only
      | cons o1 rest1 =>
        dsimp only [List.foldl, openFoldStep]
        cases hM : openAllB (fssDepth L + 1) (.overlay L) name with
        | error e =>
          dsimp only
          rw [foldl_openFoldStep_error]
        | ok Mes =>
          dsimp only
          rw [openAllB_succ_overlay, hstat] at hM
          dsimp only at hM
          rw [if_pos hdir, hcolL] at hM
          cases rest1 with
          | nil =>
            dsimp only at hM
            have hmem : o1 ∈ collectDirsList L name := by
              rw [hcolL]
              exact List.mem_singleton.mpr rfl
            have hdo1 : Fs.depth o1 ≤ fssDepth L :=
              depth_of_mem_collectList L name o1 hmem
            have huo1 : listingsUniqueAt o1 name = true :=
              unique_of_mem_collectList L name hu o1 hmem
            have hnodup : nodupNamesB Mes = true :=
              openAllB_nodup (fssDepth L) o1 name Mes huo1 hM
            have hfuel : openAllB (fssDepth L + 1) o1 name =
                openAllB (fssDepth L) o1 name :=
              openAllB_fuel (fssDepth L + 1) o1 (fssDepth L) name
                (le_trans hdo1 (Nat.le_succ _)) hdo1
            dsimp only [List.foldl]
            rw [hfuel, hM]
            dsimp only
            rw [defaultDirMerger_nil_left Mes hnodup,
              defaultDirMerger_absorb Mes Mes (fun s hs => hs)]
          | cons o2 rest2 =>
            dsimp only at hM
            rw [foldl_openFoldStep_spec] at hM
            have hfold1 : (match openAllB (fssDepth L + 1) o1 name with
                | .error e => Except.error e
                | .ok es =>
                  Except.ok (defaultDirMerger (defaultDirMerger [] Mes) es)) =
                openFoldStep (fssDepth L + 1) name
                  (.ok (defaultDirMerger [] Mes)) o1 := rfl
            rw [hfold1, ← List.foldl_cons]
            cases hcr : collectResults (fssDepth L) (o1 :: o2 :: rest2) name with
            | error e2 =>
              rw [hcr] at hM
              simp [Except.map] at hM
            | ok ess =>
              rw [hcr] at hM
              simp only [Except.map, Except.ok.injEq] at hM
              have hnodup : nodupNamesB Mes = true := by
                rw [← hM]
                exact nodupNamesB_foldl_merge ess [] rfl
              have hpt : ∀ o ∈ o1 :: o2 :: rest2,
                  openAllB (fssDepth L + 1) o name =
                    openAllB (fssDepth L) o name := by
                intro o ho
                have hdo : Fs.depth o ≤ fssDepth L :=
                  depth_of_mem_collectList L name o (by rw [hcolL]; exact ho)
                exact openAllB_fuel (fssDepth L + 1) o (fssDepth L) name
                  (le_trans hdo (Nat.le_succ _)) hdo
              rw [foldl_openFoldStep_spec,
                collectResults_congr (fssDepth L + 1) (fssDepth L) _ name hpt,
                hcr]
              simp only [Except.map, Except.ok.injEq]
              rw [defaultDirMerger_nil_left Mes hnodup, foldl_merge_flatten]
              refine defaultDirMerger_absorb _ _ (fun s hs => ?_)
              rw [← hM, hasName_foldl_merge,
                show hasName ([] : List FileInfo) s = false from rfl,
                Bool.false_or]
              exact hs
    · rw [if_neg hdir]

/-- **C7**: an overlay whose single backend is itself an overlay over
`L1 ++ L2` produces, for every path (with name-unique leaf listings, the
directory invariant), the same `Stat` result and the same fully-read
merged directory entry sequence as the flat overlay over `L1 ++ L2`;
the backend lists may themselves contain arbitrarily nested overlays. -/
theorem c7_nesting_flattening (L1 L2 : List Fs) (name : String)
    (hu : listingsUniqueAtList (L1 ++ L2) name = true) :
    OverlayStat [Fs.overlay (L1 ++ L2)] name = OverlayStat (L1 ++ L2) name ∧
    Fs.openAll (.overlay [.overlay (L1 ++ L2)]) name =
      Fs.openAll (.overlay (L1 ++ L2)) name :=
  ⟨OverlayStat_single_overlay (L1 ++ L2) name,
   openAll_single_overlay (L1 ++ L2) name hu⟩

/-- Witness for C7: two single-leaf backend lists sharing the directory
`"d"` with a duplicate entry name. -/
theorem c7_witness :
    OverlayStat [Fs.overlay [.leaf c7LeafA, .leaf c7LeafB]] "d" =
      OverlayStat [.leaf c7LeafA, .leaf c7LeafB] "d" ∧
    Fs.openAll (.overlay [.overlay [.leaf c7LeafA, .leaf c7LeafB]]) "d" =
      Fs.openAll (.overlay [.leaf c7LeafA, .leaf c7LeafB]) "d" :=
  c7_nesting_flattening [.leaf c7LeafA] [.leaf c7LeafB] "d" (by decide)

/-- Witness for the amended C8 at the concrete two-backend overlay. -/
theorem c8_amended_witness :
    (∀ i, AppendModel.FilesystemH
            (AppendModel.appendFs AppendModel.c8Heap0 AppendModel.c8O0 12).1
            AppendModel.c8O0 i =
          AppendModel.FilesystemH AppendModel.c8Heap0 AppendModel.c8O0 i) ∧
    (∀ i, AppendModel.FilesystemH
            (AppendModel.appendFs
              (AppendModel.appendFs AppendModel.c8Heap0 AppendModel.c8O0 12).1
              AppendModel.c8O0 13).1 AppendModel.c8O0 i =
          AppendModel.FilesystemH AppendModel.c8Heap0 AppendModel.c8O0 i) ∧
    AppendModel.NumFilesystems
        (AppendModel.appendFs AppendModel.c8Heap0 AppendModel.c8O0 12).2 =
      AppendModel.NumFilesystems AppendModel.c8O0 + 1 ∧
    (∀ i, i < AppendModel.c8O0.fss.len →
      AppendModel.FilesystemH
          (AppendModel.appendFs
            (AppendModel.appendFs AppendModel.c8Heap0 AppendModel.c8O0 12).1
            AppendModel.c8O0 13).1
          (AppendModel.appendFs AppendModel.c8Heap0 AppendModel.c8O0 12).2 i =
      AppendModel.FilesystemH
          (AppendModel.appendFs AppendModel.c8Heap0 AppendModel.c8O0 12).1
          (AppendModel.appendFs AppendModel.c8Heap0 AppendModel.c8O0 12).2 i) :=
  c8_amended_append_isolation AppendModel.c8Heap0 AppendModel.c8O0 12 13
    (by decide) (by decide)

end Overlay
